import Mathlib

/-!
Shallow embedding of `utxodump.py`, a tool that dumps the Bitcoin chainstate
UTXO set from a LevelDB store as CSV rows.  Byte sequences (Python `bytearray`)
are modelled as `List Nat`; Python's arbitrary-precision non-negative integers
are `Nat`; `assert` failures and index errors are modelled as `none` of an
`Option` result.  Definitions are transcribed from the source; theorems below
check the specification's claims against them.
-/

/-- Prefix byte for coins (`COIN = 67` in the source). -/
def COIN : Nat := 67

/-- Embedding of `get_obfuscate_key`: given the raw secret record fetched from
the database, assert `secret[0] == 8 and len(secret) == 9` and return
`secret[1:]`.  Assertion failure (or an out-of-range index on an empty record)
is `none`. -/
def get_obfuscate_key (secret : List Nat) : Option (List Nat) :=
  match secret with
  | [] => none
  | s0 :: rest => if s0 = 8 ∧ rest.length + 1 = 9 then some rest else none

/-- Helper for `decrypt`: XOR byte at running index `i` with
`key[i % len(key)]`, mirroring the in-place loop of the source functionally. -/
def decryptFrom (key : List Nat) : Nat → List Nat → List Nat
  | _, [] => []
  | i, c :: rest => (c ^^^ key.getD (i % key.length) 0) :: decryptFrom key (i + 1) rest

/-- Embedding of `decrypt`: XOR cipher, `ciphertext[i] ^= key[i % len(key)]`
for every index `i`. -/
def decrypt (ciphertext key : List Nat) : List Nat :=
  decryptFrom key 0 ciphertext

/-- Helper for `decode_varint`: the loop `for i, c in enumerate(val)` with
accumulator `n` and enumeration index `i`.  Falling off the end of the input
hits `assert False`, modelled as `none`. -/
def decodeVarintAux : Nat → Nat → List Nat → Option (Nat × Nat)
  | _, _, [] => none
  | n, i, c :: rest =>
    let m := (n <<< 7) ||| (c &&& 0x7f)
    if c &&& 0x80 ≠ 0 then decodeVarintAux (m + 1) (i + 1) rest
    else some (m, i + 1)

/-- Embedding of `decode_varint`: decode one varint at offset 0, returning the
value and the number of bytes consumed. -/
def decode_varint (val : List Nat) : Option (Nat × Nat) :=
  decodeVarintAux 0 0 val

/-- Helper for `decompress_amount`: the trailing `while e: n *= 10; e -= 1`
loop, i.e. multiply `n` by ten, `e` times. -/
def mulTens : Nat → Nat → Nat
  | n, 0 => n
  | n, e + 1 => mulTens (n * 10) e

/-- Embedding of `decompress_amount`. -/
def decompress_amount (x : Nat) : Nat :=
  if x = 0 then 0
  else
    let x1 := x - 1
    let e := x1 % 10
    let x2 := x1 / 10
    let n := if e < 9 then (x2 / 9) * 10 + ((x2 % 9) + 1) else x2 + 1
    mulTens n e

/-- Lowercase hexadecimal digit for a value below 16. -/
def hexDigit (n : Nat) : Char :=
  "0123456789abcdef".data.getD n '0'

/-- Two lowercase hexadecimal characters for one byte. -/
def hexByte (b : Nat) : List Char :=
  [hexDigit (b / 16), hexDigit (b % 16)]

/-- Embedding of `binascii.hexlify(...).decode('utf8')`: the lowercase
hexadecimal rendering of a byte sequence. -/
def hexlify (l : List Nat) : String :=
  String.mk ((l.map hexByte).flatten)

/-- Embedding of `decode_key`: assert the first byte is `COIN`, render
`key[1:33]` reversed as hex for the txid, varint-decode `key[33:]` for the
vout, and assert the varint consumed all remaining bytes. -/
def decode_key (key : List Nat) : Option (String × Nat) :=
  match key with
  | [] => none
  | k0 :: rest =>
    if k0 = COIN then
      match decode_varint (rest.drop 32) with
      | none => none
      | some (vout, declen) =>
        if declen = (rest.drop 32).length then
          some (hexlify (rest.take 32).reverse, vout)
        else none
    else none

/-- Embedding of `decode_val`: varint-decode the code word, split it into
coinbase flag and height, varint-decode the compressed amount from the
remaining bytes, and decompress it. -/
def decode_val (val : List Nat) : Option (Nat × Nat × Nat) :=
  match decode_varint val with
  | none => none
  | some (code, consumed) =>
    match decode_varint (val.drop consumed) with
    | none => none
    | some (txval, _) => some (code >>> 1, code &&& 1, decompress_amount txval)

/-- Varint decoding written the way the specification words it: accumulator
starts at 0; each consumed byte `c` updates it to `(n <<< 7) ||| (c &&& 0x7f)`,
plus one more if the continuation bit `0x80` is set; a byte with the high bit
clear stops decoding and the result pairs the accumulator with the number of
bytes consumed; exhausting the input first fails. -/
def specVarintDecode : Nat → List Nat → Option (Nat × Nat)
  | _, [] => none
  | n, c :: rest =>
    let m := (n <<< 7) ||| (c &&& 0x7f)
    if c &&& 0x80 ≠ 0 then
      match specVarintDecode (m + 1) rest with
      | some p => some (p.1, p.2 + 1)
      | none => none
    else some (m, 1)

/-- The specification's varint decoding algorithm, started with accumulator 0. -/
def decode_varint_spec (l : List Nat) : Option (Nat × Nat) :=
  specVarintDecode 0 l

theorem decodeVarintAux_eq_spec (l : List Nat) : ∀ a i,
    decodeVarintAux a i l = (specVarintDecode a l).map fun p => (p.1, i + p.2) := by
  induction l with
  | nil => intro a i; rfl
  | cons c rest ih =>
    intro a i
    simp only [decodeVarintAux, specVarintDecode]
    by_cases h : c &&& 0x80 ≠ 0
    · rw [if_pos h, if_pos h, ih]
      cases specVarintDecode (((a <<< 7) ||| (c &&& 0x7f)) + 1) rest with
      | none => rfl
      | some p => simp [Option.map]; try omega
    · rw [if_neg h, if_neg h]
      simp [Option.map]

/-- C1: the varint decoder at offset 0 follows exactly the specification's
algorithm — accumulator `n := (n <<< 7) ||| (c &&& 0x7f)` per byte, `+1` on a
set continuation bit, stop at a clear high bit returning the accumulator with
the count of consumed bytes, and failure (including on empty input) when the
input runs out before a terminating byte. -/
theorem varint_decoder_follows_spec : ∀ l : List Nat,
    decode_varint l = decode_varint_spec l := by
  intro l
  unfold decode_varint decode_varint_spec
  rw [decodeVarintAux_eq_spec]
  cases specVarintDecode 0 l with
  | none => rfl
  | some p => simp

theorem mulTens_eq (e : Nat) : ∀ n, mulTens n e = n * 10 ^ e := by
  induction e with
  | zero => intro n; simp [mulTens]
  | succ k ih =>
    intro n
    rw [mulTens, ih]
    ring

/-- C2: the amount decompressor maps 0 to 0 and otherwise, with
`x1 = x - 1`, `e = x1 % 10`, `x2 = x1 / 10`, returns `n * 10 ^ e` where
`n = (x2 / 9) * 10 + (x2 % 9) + 1` when `e < 9` and `n = x2 + 1` when `e = 9`;
in particular, code 1 decompresses to 1 and code 0 to 0. -/
theorem decompress_amount_formula :
    (∀ x : Nat, decompress_amount x =
      if x = 0 then 0
      else
        ((if (x - 1) % 10 < 9 then
            (((x - 1) / 10) / 9) * 10 + ((x - 1) / 10) % 9 + 1
          else (x - 1) / 10 + 1) * 10 ^ ((x - 1) % 10))) ∧
    decompress_amount 1 = 1 ∧ decompress_amount 0 = 0 := by
  refine ⟨fun x => ?_, by decide, by decide⟩
  unfold decompress_amount
  by_cases h0 : x = 0
  · simp [h0]
  · rw [if_neg h0, if_neg h0, mulTens_eq]
    by_cases he : (x - 1) % 10 < 9
    · rw [if_pos he, if_pos he]
      ring
    · rw [if_neg he, if_neg he]

theorem decodeVarintAux_append (l : List Nat) : ∀ (a i n c : Nat) (ex : List Nat),
    decodeVarintAux a i l = some (n, c) →
    decodeVarintAux a i (l ++ ex) = some (n, c) := by
  induction l with
  | nil => intro a i n c ex h; exact absurd h (by simp [decodeVarintAux])
  | cons b rest ih =>
    intro a i n c ex h
    rw [List.cons_append]
    rw [decodeVarintAux] at h ⊢
    by_cases hb : b &&& 0x80 ≠ 0
    · rw [if_pos hb] at h ⊢
      exact ih _ _ _ _ _ h
    · rw [if_neg hb] at h ⊢
      exact h

theorem decodeVarintAux_consumed (l : List Nat) : ∀ (a i n c : Nat),
    decodeVarintAux a i l = some (n, c) → i + 1 ≤ c ∧ c ≤ i + l.length := by
  induction l with
  | nil => intro a i n c h; exact absurd h (by simp [decodeVarintAux])
  | cons b rest ih =>
    intro a i n c h
    rw [decodeVarintAux] at h
    by_cases hb : b &&& 0x80 ≠ 0
    · rw [if_pos hb] at h
      have := ih _ _ _ _ h
      simp only [List.length_cons]
      omega
    · rw [if_neg hb] at h
      simp only [Option.some.injEq, Prod.mk.injEq] at h
      simp only [List.length_cons]
      omega

theorem decode_varint_append {l : List Nat} {n c : Nat}
    (h : decode_varint l = some (n, c)) (ex : List Nat) :
    decode_varint (l ++ ex) = some (n, c) :=
  decodeVarintAux_append l 0 0 n c ex h

theorem decode_varint_consumed {l : List Nat} {n c : Nat}
    (h : decode_varint l = some (n, c)) : 1 ≤ c ∧ c ≤ l.length := by
  have := decodeVarintAux_consumed l 0 0 n c h
  omega

theorem decode_varint_nil : decode_varint [] = none := rfl

/-- C3: key decoding fails when the first byte is not 67 (including the empty
key, which has no first byte), fails when the trailing varint does not consume
exactly the remaining bytes, and otherwise returns the lowercase hex rendering
of bytes 1 to 32 in reversed order together with the varint value as vout. -/
theorem decode_key_cases :
    (∀ key : List Nat, key.head? ≠ some 67 → decode_key key = none) ∧
    (∀ (k0 : Nat) (rest : List Nat) (v d : Nat),
      decode_varint (rest.drop 32) = some (v, d) → d ≠ (rest.drop 32).length →
      decode_key (k0 :: rest) = none) ∧
    (∀ rest : List Nat, decode_varint (rest.drop 32) = none →
      decode_key (67 :: rest) = none) ∧
    (∀ (rest : List Nat) (v : Nat),
      decode_varint (rest.drop 32) = some (v, (rest.drop 32).length) →
      decode_key (67 :: rest) = some (hexlify (rest.take 32).reverse, v)) := by
  refine ⟨?_, ?_, ?_, ?_⟩
  · intro key h
    cases key with
    | nil => rfl
    | cons k0 rest =>
      simp only [List.head?, Option.some.injEq, ne_eq] at h
      simp [decode_key, COIN, h]
  · intro k0 rest v d hv hd
    by_cases hk : k0 = COIN
    · subst hk
      simp [decode_key, hv]
      simpa using hd
    · simp [decode_key, hk]
  · intro rest hv
    simp [decode_key, COIN, hv]
  · intro rest v hv
    simp [decode_key, COIN, hv]

theorem decode_key_cases_witness :
    decode_key [0] = none ∧
    decode_key (67 :: (List.replicate 32 (0 : Nat) ++ [0, 5])) = none ∧
    decode_key (67 :: List.replicate 32 (0 : Nat)) = none ∧
    decode_key (67 :: (List.replicate 32 (0 : Nat) ++ [7])) =
      some (hexlify ((List.replicate 32 (0 : Nat) ++ [7]).take 32).reverse, 7) :=
  ⟨decode_key_cases.1 [0] (by decide),
   decode_key_cases.2.1 67 (List.replicate 32 0 ++ [0, 5]) 0 1 rfl (by simp),
   decode_key_cases.2.2.1 (List.replicate 32 0) rfl,
   decode_key_cases.2.2.2 (List.replicate 32 0 ++ [7]) 7 rfl⟩

/-- C4: whenever the leading varint of a value buffer decodes to `code` with
`c` consumed bytes and a second varint decodes from the bytes at offset `c`,
value decoding returns height `code >>> 1`, coinbase flag `code &&& 1`, and
the decompressed second varint as the amount. -/
theorem decode_val_correct (val : List Nat) (code c v d : Nat)
    (h1 : decode_varint val = some (code, c))
    (h2 : decode_varint (val.drop c) = some (v, d)) :
    decode_val val = some (code >>> 1, code &&& 1, decompress_amount v) := by
  simp only [decode_val, h1, h2]

theorem decode_val_correct_witness : decode_val [3, 5] = some (1, 1, 10000) :=
  (decode_val_correct [3, 5] 3 1 5 1 rfl rfl).trans (by decide)

theorem hexChars_length (l : List Nat) :
    ((l.map hexByte).flatten).length = 2 * l.length := by
  induction l with
  | nil => rfl
  | cons b rest ih =>
    simp [hexByte] at ih ⊢
    omega

theorem hexlify_length (l : List Nat) : (hexlify l).length = 2 * l.length := by
  have h : (hexlify l).length = ((l.map hexByte).flatten).length := rfl
  rw [h, hexChars_length]

/-- C9: although the key decoder checks no minimum length explicitly, success
implies the key holds at least 34 bytes and the txid string has exactly 64 hex
characters; any key of at most 33 bytes whose first byte is the valid prefix
67 makes the trailing varint decode from an empty suffix and fail. -/
theorem decode_key_min_length :
    (∀ (key : List Nat) (txid : String) (vout : Nat),
      decode_key key = some (txid, vout) → 34 ≤ key.length ∧ txid.length = 64) ∧
    (∀ key : List Nat, key.head? = some 67 → key.length ≤ 33 →
      decode_key key = none) := by
  constructor
  · intro key txid vout h
    cases key with
    | nil => exact absurd h (by simp [decode_key])
    | cons k0 rest =>
      rw [decode_key] at h
      by_cases hk : k0 = COIN
      · rw [if_pos hk] at h
        cases hv : decode_varint (rest.drop 32) with
        | none => rw [hv] at h; exact absurd h (by simp)
        | some p =>
          obtain ⟨v, dl⟩ := p
          simp only [hv] at h
          by_cases hd : dl = (rest.drop 32).length
          · rw [if_pos hd] at h
            have hc := decode_varint_consumed hv
            have hlen : 33 ≤ rest.length := by
              simp only [List.length_drop] at hc hd
              omega
            simp only [Option.some.injEq, Prod.mk.injEq] at h
            constructor
            · simp only [List.length_cons]
              omega
            · rw [← h.1, hexlify_length, List.length_reverse, List.length_take]
              omega
          · rw [if_neg hd] at h
            exact absurd h (by simp)
      · rw [if_neg hk] at h
        exact absurd h (by simp)
  · intro key hhead hlen
    cases key with
    | nil => rfl
    | cons k0 rest =>
      simp only [List.head?, Option.some.injEq] at hhead
      have hdrop : rest.drop 32 = [] := by
        apply List.drop_eq_nil_of_le
        simp only [List.length_cons] at hlen
        omega
      simp [decode_key, hhead, COIN, hdrop, decode_varint_nil]

theorem decode_key_min_length_witness :
    (34 ≤ (67 :: (List.replicate 32 (0 : Nat) ++ [0])).length ∧
      (hexlify ((List.replicate 32 (0 : Nat) ++ [0]).take 32).reverse).length = 64) ∧
    decode_key (67 :: List.replicate 32 (0 : Nat)) = none :=
  ⟨decode_key_min_length.1 (67 :: (List.replicate 32 0 ++ [0]))
      (hexlify ((List.replicate 32 (0 : Nat) ++ [0]).take 32).reverse) 0 (by decide),
   decode_key_min_length.2 (67 :: List.replicate 32 0) rfl (by simp)⟩

/-- C10: value decoding never requires its two varints to cover the whole
buffer; whenever both varints decode, appending arbitrary trailing bytes (the
script payload) neither changes the decoded triple nor causes a failure. -/
theorem decode_val_ignores_trailing (val extra : List Nat) (code c v d : Nat)
    (h1 : decode_varint val = some (code, c))
    (h2 : decode_varint (val.drop c) = some (v, d)) :
    decode_val (val ++ extra) = decode_val val ∧ (decode_val val).isSome := by
  have hc := decode_varint_consumed h1
  have h1' := decode_varint_append h1 extra
  have hdrop : (val ++ extra).drop c = val.drop c ++ extra := by
    rw [List.drop_append_eq_append_drop]
    have hz : c - val.length = 0 := by omega
    rw [hz, List.drop_zero]
  have h2' : decode_varint ((val ++ extra).drop c) = some (v, d) := by
    rw [hdrop]
    exact decode_varint_append h2 extra
  constructor
  · simp only [decode_val, h1, h2, h1', h2']
  · simp only [decode_val, h1, h2, Option.isSome_some]

theorem decode_val_ignores_trailing_witness :
    decode_val ([3, 5] ++ [99]) = decode_val [3, 5] ∧ (decode_val [3, 5]).isSome :=
  decode_val_ignores_trailing [3, 5] [99] 3 1 5 1 rfl rfl

theorem decryptFrom_involution (key : List Nat) (l : List Nat) : ∀ i : Nat,
    decryptFrom key i (decryptFrom key i l) = l := by
  induction l with
  | nil => intro i; rfl
  | cons c rest ih =>
    intro i
    simp only [decryptFrom, ih]
    congr 1
    rw [Nat.xor_assoc, Nat.xor_self, Nat.xor_zero]

/-- C6: the XOR cipher is an involution — decrypting twice with the same key
of length at least one returns the original byte sequence. -/
theorem decrypt_involution (l key : List Nat) (_hkey : 1 ≤ key.length) :
    decrypt (decrypt l key) key = l := by
  unfold decrypt
  exact decryptFrom_involution key l 0

theorem decrypt_involution_witness :
    decrypt (decrypt [1, 2, 3] [7]) [7] = [1, 2, 3] :=
  decrypt_involution [1, 2, 3] [7] (by decide)

/-- C7: loading the obfuscation key fails on every record whose length is not
9 or whose first byte is not 8, and on a valid record `8 :: rest` with eight
key bytes it returns exactly those eight bytes. -/
theorem get_obfuscate_key_valid :
    (∀ secret : List Nat, secret.length ≠ 9 → get_obfuscate_key secret = none) ∧
    (∀ secret : List Nat, secret.head? ≠ some 8 → get_obfuscate_key secret = none) ∧
    (∀ rest : List Nat, rest.length = 8 →
      get_obfuscate_key (8 :: rest) = some rest) := by
  refine ⟨?_, ?_, ?_⟩
  · intro secret h
    cases secret with
    | nil => rfl
    | cons s0 rest =>
      simp only [List.length_cons] at h
      simp [get_obfuscate_key]
      omega
  · intro secret h
    cases secret with
    | nil => rfl
    | cons s0 rest =>
      simp only [List.head?, Option.some.injEq, ne_eq] at h
      simp [get_obfuscate_key, h]
  · intro rest h
    simp [get_obfuscate_key, h]

theorem get_obfuscate_key_valid_witness :
    get_obfuscate_key [8, 1, 2] = none ∧
    get_obfuscate_key (3 :: List.replicate 8 (0 : Nat)) = none ∧
    get_obfuscate_key (8 :: List.replicate 8 (5 : Nat)) =
      some (List.replicate 8 (5 : Nat)) :=
  ⟨get_obfuscate_key_valid.1 [8, 1, 2] (by decide),
   get_obfuscate_key_valid.2.1 (3 :: List.replicate 8 0) (by decide),
   get_obfuscate_key_valid.2.2 (List.replicate 8 5) (by simp)⟩

theorem and_127_eq_mod (c : Nat) : c &&& 0x7f = c % 128 := by
  have h : (0x7f : Nat) = 2 ^ 7 - 1 := by norm_num
  rw [h, Nat.and_pow_two_sub_one_eq_mod]

theorem high_bit_and : ∀ k, k < 128 → (k + 128) &&& 0x80 = 0x80 := by decide

theorem low_bit_and : ∀ k, k < 128 → k &&& 0x80 = 0 := by decide

theorem shiftLeft_or_small (a x : Nat) (hx : x < 128) :
    (a <<< 7) ||| x = 128 * a + x := by
  have h128 : (128 : Nat) = 2 ^ 7 := by norm_num
  apply Nat.eq_of_testBit_eq
  intro j
  rw [Nat.testBit_or, Nat.testBit_shiftLeft, h128,
    Nat.testBit_mul_pow_two_add a (by simpa using hx) j]
  by_cases hj : j < 7
  · have hnot : ¬ (j ≥ 7) := by omega
    simp [hj, hnot]
  · have hge : j ≥ 7 := by omega
    have hxj : x < 2 ^ j :=
      lt_of_lt_of_le (by simpa using hx) (Nat.pow_le_pow_right (by norm_num) hge)
    simp [hj, hge, Nat.testBit_lt_two_pow hxj]

theorem decodeVarintAux_cont (a i k : Nat) (hk : k < 128) (rest : List Nat) :
    decodeVarintAux a i ((k + 128) :: rest) =
    decodeVarintAux (128 * a + k + 1) (i + 1) rest := by
  simp only [decodeVarintAux]
  rw [if_pos (by rw [high_bit_and k hk]; norm_num)]
  congr 1
  rw [and_127_eq_mod, Nat.add_mod_right, Nat.mod_eq_of_lt hk, shiftLeft_or_small a k hk]

theorem decodeVarintAux_last (a i k : Nat) (hk : k < 128) (rest : List Nat) :
    decodeVarintAux a i (k :: rest) = some (128 * a + k, i + 1) := by
  simp only [decodeVarintAux]
  rw [if_neg (by rw [low_bit_and k hk]; norm_num)]
  rw [and_127_eq_mod, Nat.mod_eq_of_lt hk, shiftLeft_or_small a k hk]

/-- Modelled from the spec: the repository contains no varint encoder, but the
spec's round-trip property refers to the matching `encode` for this decoder.
This is that encoder's continuation part: the bytes of `m`, seven payload bits
per byte, every byte carrying the continuation bit `0x80`, where each step
recurses on `m / 128 - 1` to compensate for the decoder's `+1` on
continuation. -/
def encodeUpper (m : Nat) : List Nat :=
  if h : m < 128 then [m + 128]
  else encodeUpper (m / 128 - 1) ++ [m % 128 + 128]
termination_by m
decreasing_by
  have h1 : m / 128 < m := Nat.div_lt_self (by omega) (by norm_num)
  omega

/-- Modelled from the spec: the varint encoder matching the decoder above.  A
value below 128 is one bare byte; otherwise the final byte holds `n % 128`
with the high bit clear and the leading continuation bytes encode
`n / 128 - 1`. -/
def encode_varint (n : Nat) : List Nat :=
  if n < 128 then [n]
  else encodeUpper (n / 128 - 1) ++ [n % 128]

theorem decodeVarintAux_encodeUpper (m : Nat) : ∀ (a i : Nat) (rest : List Nat),
    decodeVarintAux a i (encodeUpper m ++ rest) =
    decodeVarintAux (a * 128 ^ (encodeUpper m).length + (m + 1))
      (i + (encodeUpper m).length) rest := by
  induction m using Nat.strong_induction_on with
  | _ m ih =>
    intro a i rest
    by_cases hm : m < 128
    · rw [encodeUpper, dif_pos hm]
      rw [List.singleton_append, decodeVarintAux_cont a i m hm rest]
      congr 1
      simp only [List.length_cons, List.length_nil]
      ring
    · rw [encodeUpper, dif_neg hm]
      have hlt : m / 128 - 1 < m := by
        have h1 : m / 128 < m := Nat.div_lt_self (by omega) (by norm_num)
        omega
      rw [List.append_assoc, ih (m / 128 - 1) hlt, List.singleton_append,
        decodeVarintAux_cont _ _ (m % 128) (Nat.mod_lt _ (by norm_num)) rest]
      congr 1
      · simp only [List.length_append, List.length_cons, List.length_nil]
        have hdiv : m / 128 - 1 + 1 = m / 128 := by omega
        rw [hdiv]
        have hpow : a * 128 ^ ((encodeUpper (m / 128 - 1)).length + (0 + 1)) =
            (a * 128 ^ (encodeUpper (m / 128 - 1)).length) * 128 := by ring
        rw [hpow]
        generalize a * 128 ^ (encodeUpper (m / 128 - 1)).length = A
        omega
      · simp only [List.length_append, List.length_cons, List.length_nil]
        omega

/-- C5: varint round trip — decoding the matching encoder's output for any
non-negative integer recovers exactly that integer and consumes exactly the
encoded bytes. -/
theorem decode_encode_varint (n : Nat) :
    decode_varint (encode_varint n) = some (n, (encode_varint n).length) := by
  unfold decode_varint encode_varint
  by_cases h : n < 128
  · rw [if_pos h, decodeVarintAux_last 0 0 n h []]
    simp
  · rw [if_neg h, decodeVarintAux_encodeUpper, decodeVarintAux_last _ _ (n % 128)
      (Nat.mod_lt _ (by norm_num)) []]
    simp only [List.length_append, List.length_cons, List.length_nil,
      Option.some.injEq, Prod.mk.injEq]
    constructor
    · have hdiv : n / 128 - 1 + 1 = n / 128 := by omega
      rw [Nat.zero_mul, Nat.zero_add, hdiv]
      omega
    · omega

/-- Byte-string strict lexicographic order, the order LevelDB keeps keys in. -/
def lexLt : List Nat → List Nat → Bool
  | [], [] => false
  | [], _ :: _ => true
  | _ :: _, [] => false
  | a :: as, b :: bs => if a < b then true else if b < a then false else lexLt as bs

/-- Byte-string lexicographic order, non-strict. -/
def lexLe (x y : List Nat) : Bool := lexLt x y || x == y

/-- A store entry whose key lies in the half-open range from the one-byte
string with byte 67 (ASCII C, inclusive) to the one-byte string with byte 68
(ASCII D, exclusive). -/
def inRangeEntry (e : List Nat × List Nat) : Bool :=
  lexLe [67] e.1 && lexLt e.1 [68]

/-- Modelled from the spec: the store's ordered byte-range iteration used by
`dump_csv` — the entries whose keys lie in the half-open range from byte
string C inclusive to byte string D exclusive, in the store's native order.
The LevelDB binding providing this iteration is an external collaborator, not
part of this repository; the spec describes it as a half-open range iterator. -/
def rangeIter (entries : List (List Nat × List Nat)) : List (List Nat × List Nat) :=
  entries.filter inRangeEntry

/-- One output row of the dump: the header or one decoded UTXO record
(txid, vout, height, coinbase, amount). -/
inductive Row where
  | header : Row
  | record : String → Nat → Nat → Nat → Nat → Row
deriving DecidableEq

/-- A key-value store as the dump driver sees it: the secret record stored
under the fixed obfuscation-key key, and the entries in native key order. -/
structure Store where
  secret : List Nat
  entries : List (List Nat × List Nat)

/-- The loop body of `dump_csv` for one entry: `decode_key` on the key,
`decrypt` then `decode_val` on the value, combined into one row. -/
def decodeEntry (secret : List Nat) (e : List Nat × List Nat) : Option Row :=
  match decode_key e.1 with
  | none => none
  | some (txid, vout) =>
    match decode_val (decrypt e.2 secret) with
    | none => none
    | some (height, coinbase, amount) =>
      some (Row.record txid vout height coinbase amount)

/-- Run a fallible decode over a list, failing on the first failure — the
dump loop aborts on the first malformed entry. -/
def mapOption {α β : Type} (f : α → Option β) : List α → Option (List β)
  | [] => some []
  | x :: xs =>
    match f x, mapOption f xs with
    | some y, some ys => some (y :: ys)
    | _, _ => none

/-- Embedding of `dump_csv`: load the secret, emit the header row, then decode
every entry of the C-to-D key range in store order.  A malformed secret or a
malformed entry makes the dump fail. -/
def dump_csv (store : Store) : Option (List Row) :=
  match get_obfuscate_key store.secret with
  | none => none
  | some secret =>
    match mapOption (decodeEntry secret) (rangeIter store.entries) with
    | none => none
    | some recs => some (Row.header :: recs)

theorem mapOption_length {α β : Type} (f : α → Option β) :
    ∀ (l : List α) (r : List β), mapOption f l = some r → r.length = l.length := by
  intro l
  induction l with
  | nil =>
    intro r h
    simp only [mapOption, Option.some.injEq] at h
    rw [← h]
    rfl
  | cons x xs ih =>
    intro r h
    rw [mapOption] at h
    cases hx : f x with
    | none => rw [hx] at h; exact absurd h (by simp)
    | some y =>
      rw [hx] at h
      cases hxs : mapOption f xs with
      | none => rw [hxs] at h; exact absurd h (by simp)
      | some ys =>
        rw [hxs] at h
        simp only [Option.some.injEq] at h
        rw [← h]
        simp only [List.length_cons, ih ys hxs]

theorem mapOption_get {α β : Type} (f : α → Option β) :
    ∀ (l : List α) (r : List β), mapOption f l = some r →
      ∀ j : Nat, r[j]? = (l[j]?).bind f := by
  intro l
  induction l with
  | nil =>
    intro r h j
    simp only [mapOption, Option.some.injEq] at h
    rw [← h]
    simp
  | cons x xs ih =>
    intro r h j
    rw [mapOption] at h
    cases hx : f x with
    | none => rw [hx] at h; exact absurd h (by simp)
    | some y =>
      rw [hx] at h
      cases hxs : mapOption f xs with
      | none => rw [hxs] at h; exact absurd h (by simp)
      | some ys =>
        rw [hxs] at h
        simp only [Option.some.injEq] at h
        rw [← h]
        cases j with
        | zero => simp [hx]
        | succ k => simp [ih ys hxs k]

theorem decodeEntry_ne_header (secret : List Nat) (e : List Nat × List Nat)
    (y : Row) (h : decodeEntry secret e = some y) : y ≠ Row.header := by
  rw [decodeEntry] at h
  cases hk : decode_key e.1 with
  | none => rw [hk] at h; exact absurd h (by simp)
  | some p =>
    obtain ⟨txid, vout⟩ := p
    rw [hk] at h
    cases hv : decode_val (decrypt e.2 secret) with
    | none => rw [hv] at h; exact absurd h (by simp)
    | some q =>
      obtain ⟨height, coinbase, amount⟩ := q
      rw [hv] at h
      simp only [Option.some.injEq] at h
      rw [← h]
      simp

theorem mapOption_no_header (secret : List Nat) :
    ∀ (l : List (List Nat × List Nat)) (r : List Row),
      mapOption (decodeEntry secret) l = some r → Row.header ∉ r := by
  intro l
  induction l with
  | nil =>
    intro r h
    simp only [mapOption, Option.some.injEq] at h
    rw [← h]
    simp
  | cons x xs ih =>
    intro r h
    rw [mapOption] at h
    cases hx : decodeEntry secret x with
    | none => rw [hx] at h; exact absurd h (by simp)
    | some y =>
      rw [hx] at h
      cases hxs : mapOption (decodeEntry secret) xs with
      | none => rw [hxs] at h; exact absurd h (by simp)
      | some ys =>
        rw [hxs] at h
        simp only [Option.some.injEq] at h
        rw [← h]
        intro hmem
        cases List.mem_cons.mp hmem with
        | inl heq => exact decodeEntry_ne_header secret x y hx heq.symm
        | inr hmem2 => exact ih ys hxs hmem2

/-- C8: given a store whose secret loads and whose in-range entries all
decode, the driver emits the header row once followed by exactly one decoded
record per entry in the half-open C-to-D key range, in the store's native
order, and entries outside the range never reach the record decoder (removing
them does not change the output). -/
theorem dump_csv_driver (store : Store) (secret : List Nat) (recs : List Row)
    (hsec : get_obfuscate_key store.secret = some secret)
    (hmap : mapOption (decodeEntry secret) (rangeIter store.entries) = some recs) :
    dump_csv store = some (Row.header :: recs) ∧
    recs.length = (store.entries.filter inRangeEntry).length ∧
    Row.header ∉ recs ∧
    (∀ j : Nat, recs[j]? =
      ((store.entries.filter inRangeEntry)[j]?).bind (decodeEntry secret)) ∧
    dump_csv ⟨store.secret, store.entries.filter inRangeEntry⟩ = dump_csv store := by
  have h1 : dump_csv store = some (Row.header :: recs) := by
    simp only [dump_csv, hsec, hmap]
  have hfilter : rangeIter (store.entries.filter inRangeEntry) =
      rangeIter store.entries := by
    simp [rangeIter, List.filter_filter]
  refine ⟨h1, mapOption_length _ _ _ hmap, mapOption_no_header _ _ _ hmap,
    mapOption_get _ _ _ hmap, ?_⟩
  rw [h1]
  simp only [dump_csv, hsec, hfilter, hmap]

theorem dump_csv_driver_witness :
    dump_csv ⟨[8, 0, 0, 0, 0, 0, 0, 0, 0],
        [([66], [1, 2, 3]), (67 :: (List.replicate 32 0 ++ [0]), [0, 0])]⟩ =
      some [Row.header,
        Row.record (hexlify ((List.replicate 32 (0 : Nat) ++ [0]).take 32).reverse)
          0 0 0 0] :=
  (dump_csv_driver
    ⟨[8, 0, 0, 0, 0, 0, 0, 0, 0],
      [([66], [1, 2, 3]), (67 :: (List.replicate 32 0 ++ [0]), [0, 0])]⟩
    (List.replicate 8 0)
    [Row.record (hexlify ((List.replicate 32 (0 : Nat) ++ [0]).take 32).reverse)
      0 0 0 0]
    (by decide) (by decide)).1
